import Mathlib

/-!
Verification of `tags2groups.py`: a script that maps tagged hosts to groups
on a remote directory service.  The pure logic of the script is embedded
shallowly: file lines are `List Char`, remote calls are abstracted into
explicit parameters (search results, resolver functions) and emitted
actions, and the mutable remote group store is an explicit `RemoteState`.
-/

/-! ## Mapping file codec (`gen_tag_file`, `process_tag_file`) -/

/-- The characters Python `str.strip()` removes by default
(`Py_UNICODE_ISSPACE`): the ASCII span 09–0D, the separators 1C–1F, space,
NEL, NBSP and the Unicode space and line/paragraph separators. -/
def pyWhitespace (c : Char) : Bool :=
  (0x09 ≤ c.toNat && c.toNat ≤ 0x0D) || (0x1C ≤ c.toNat && c.toNat ≤ 0x1F)
    || c.toNat = 0x20 || c.toNat = 0x85 || c.toNat = 0xA0 || c.toNat = 0x1680
    || (0x2000 ≤ c.toNat && c.toNat ≤ 0x200A) || c.toNat = 0x2028 || c.toNat = 0x2029
    || c.toNat = 0x202F || c.toNat = 0x205F || c.toNat = 0x3000

/-- Python `str.strip()`: drop whitespace from both ends of a line. -/
def pyStrip (s : List Char) : List Char :=
  ((s.dropWhile pyWhitespace).reverse.dropWhile pyWhitespace).reverse

/-- Python `str.split(c)` with an explicit one-character separator: split on
every occurrence of `c`, keeping empty pieces (`"".split(c) == [""]`). -/
def splitOnChar (c : Char) : List Char → List (List Char)
  | [] => [[]]
  | x :: xs =>
    if x = c then [] :: splitOnChar c xs
    else
      match splitOnChar c xs with
      | [] => [[x]]
      | r :: rs => (x :: r) :: rs

/-- The physical lines of a character stream under Python universal
newlines: a line ends at `\n`, at `\r`, or at the pair `\r\n`. -/
def splitPhysicalLines : List Char → List (List Char)
  | [] => [[]]
  | '\r' :: '\n' :: rest => [] :: splitPhysicalLines rest
  | '\r' :: rest => [] :: splitPhysicalLines rest
  | '\n' :: rest => [] :: splitPhysicalLines rest
  | x :: rest =>
    match splitPhysicalLines rest with
    | [] => [[x]]
    | r :: rs => (x :: r) :: rs

/-- Iterating a Python text file: the physical lines of the stream, with no
phantom empty line after a terminating line break. -/
def pyReadLines (c : List Char) : List (List Char) :=
  if (splitPhysicalLines c).getLastD ['#'] = [] then (splitPhysicalLines c).dropLast
  else splitPhysicalLines c

/-- The character stream obtained by writing each line with a terminating
newline, as `gen_tag_file` does. -/
def file_stream (lines : List (List Char)) : List Char :=
  lines.foldr (fun l acc => l ++ '\n' :: acc) []

/-- The comment test of `process_tag_file`: `re.search('^[#].*', line.strip())`
succeeds exactly when the stripped line starts with `#`. -/
def isComment (s : List Char) : Bool :=
  match s with
  | '#' :: _ => true
  | _ => false

/-- Python dict assignment `group_tag[group] = v`: overwrite an existing key in
place, otherwise append the new binding at the end. -/
def insertA (a : List (List Char × List (List Char))) (k : List Char)
    (v : List (List Char)) : List (List Char × List (List Char)) :=
  if a.any (fun p => decide (p.1 = k)) then
    a.map (fun p => if p.1 = k then (k, v) else p)
  else a ++ [(k, v)]

/-- Python dict lookup on the association-list model of `group_tag`. -/
def lookupA (a : List (List Char × List (List Char))) (k : List Char) :
    Option (List (List Char)) :=
  match a with
  | [] => none
  | p :: ps => if p.1 = k then some p.2 else lookupA ps k

/-- The loop body of `process_tag_file`, processing the remaining lines with
the dictionary built so far.  A non-comment line is stripped and split on
`|`; the unpacking `tag, group = ...` demands exactly two pieces and raises
(`Except.error`) otherwise. -/
def process_tag_file_from (acc : List (List Char × List (List Char))) :
    List (List Char) → Except Unit (List (List Char × List (List Char)))
  | [] => Except.ok acc
  | l :: ls =>
    let s := pyStrip l
    if isComment s then process_tag_file_from acc ls
    else
      match splitOnChar '|' s with
      | [tag, group] => process_tag_file_from (insertA acc group (splitOnChar ',' tag)) ls
      | _ => Except.error ()

/-- `process_tag_file`: read the mapping file (given as its list of lines)
into a group-name → tag-list dictionary. -/
def process_tag_file (lines : List (List Char)) :
    Except Unit (List (List Char × List (List Char))) :=
  process_tag_file_from [] lines

/-- The fixed comment header written by `gen_tag_file`. -/
def header_lines : List (List Char) :=
  [("# Separate multiple tags relating to one group with a \x27,\x27 no spaces between tags.").data,
   ("# Group illegal characters: ! @ % & * ) ( ").data,
   ("# Separate the tag(s) and relating group with a \x27|\x27 with no spaces").data,
   ("# Tag and group relation format examples:").data,
   ("#tag123|group123").data,
   ("#Role1,Role two:Webserver|group1").data,
   ("#").data,
   ("# Tags and suggested group names:").data]

/-- `gen_tag_file`: the physical lines a later read sees after writing the
comment header and one newline-terminated `tag|tag` default-suggestion line
per tag; a tag containing a line break therefore spans several physical
lines. -/
def gen_tag_file (tags : List (List Char)) : List (List Char) :=
  pyReadLines (file_stream (header_lines ++ tags.map (fun t => t ++ '|' :: t)))

/-! ## Query construction (`process_hosts`, lines 188–212) -/

/-- The `while count <= list_len` loop of `process_hosts` that appends the
OR-chain pieces to the query string, one list index at a time (`list_len`
is `len(tag) - 1`, an `Int` so that an empty list gives `-1` as in Python). -/
def orLoop (tag : List String) (listLen : Int) (count : Nat) : String :=
  if _h : (count : Int) ≤ listLen then
    (if (count : Int) = listLen then " OR \"" ++ tag.getD count "" ++ "\")"
     else if count = 0 then "\"" ++ tag.getD count "" ++ "\""
     else " OR \"" ++ tag.getD count "" ++ "\"") ++ orLoop tag listLen (count + 1)
  else ""
termination_by (listLen + 1 - count).toNat
decreasing_by omega

/-- The `query_string` portion of `cognito_tagged_host_url` built by
`process_hosts` for one mapping entry: an optional active-host conjunct, then
either the single-tag equality predicate or the parenthesized OR-chain. -/
def buildQuery (active : Bool) (tag : List String) : String :=
  (if active then "host.state:\"active\" AND " else "") ++
  (if tag.length = 1 then "host.tags:\"" ++ tag.getD 0 "" ++ "\""
   else "(host.tags:" ++ orLoop tag ((tag.length : Int) - 1) 0)

/-- Modelled from the spec (§4.3 step 1): the query fragment as the spec
words it — a lone equality predicate for one tag, otherwise a parenthesized
OR-chain in mapping order, used as the comparison point for `buildQuery`. -/
def specOrChain : List String → String
  | [] => ""
  | [t] => "\"" ++ t ++ "\""
  | t :: ts => "\"" ++ t ++ "\"" ++ " OR " ++ specOrChain ts

/-- Modelled from the spec (§4.3, §8): the whole fragment, single-tag case
unparenthesized. -/
def specFragment (tags : List String) : String :=
  match tags with
  | [t] => "host.tags:\"" ++ t ++ "\""
  | ts => "(host.tags:" ++ specOrChain ts ++ ")"

/-- The pieces the loop appends for indices `1 .. len-1`. -/
def orPieces : List String → String
  | [] => ""
  | x :: xs => " OR \"" ++ x ++ "\"" ++ orPieces xs

/-! ## Group reconciliation (`add_host_to_group`) -/

/-- A group record as returned by the `GET /groups/?name=` search:
backend id, name, and member host ids. -/
structure CogGroup where
  id : Nat
  name : String
  members : List Nat
deriving DecidableEq, Repr

/-- A remote mutation issued by `add_host_to_group`: a `POST /groups/` of
the full creation body, a `POST /groups/` of a rebound members-only body
(the source reuses the `body` variable after an exact match rebinds it to
`{"members": ...}`), or a `PATCH /groups/<id>` membership replacement. -/
inductive GAction where
  | create (name : String) (members : List Nat) : GAction
  | postMembers (members : List Nat) : GAction
  | update (groupId : Nat) (members : List Nat) : GAction
deriving DecidableEq, Repr

/-- `list(set(pre_exist_members + host_ids))`: combine existing and new
members and drop duplicates (order irrelevant; modelled by `List.dedup`). -/
def mergeMembers (pre_exist_members host_ids : List Nat) : List Nat :=
  (pre_exist_members ++ host_ids).dedup

/-- The `for item in group_results` loop of `add_host_to_group`, carrying
the current value of the Python `body` variable: an exact name match emits
the merged-membership PATCH and rebinds `body` to the members-only dict;
every other (fuzzy) item POSTs whatever `body` currently holds. -/
def add_host_loop (group : String) (host_ids : List Nat) (body : GAction) :
    List CogGroup → List GAction
  | [] => []
  | item :: rest =>
    if item.name = group then
      GAction.update item.id (mergeMembers item.members host_ids) ::
        add_host_loop group host_ids
          (GAction.postMembers (mergeMembers item.members host_ids)) rest
    else
      body :: add_host_loop group host_ids body rest

/-- `add_host_to_group`, with the group-search response made explicit:
empty response → one POST of the full creation body; otherwise the item
loop, whose `body` starts as the full creation body. -/
def add_host_to_group (group : String) (host_ids : List Nat)
    (group_results : List CogGroup) : List GAction :=
  if group_results = [] then [GAction.create group host_ids]
  else add_host_loop group host_ids (GAction.create group host_ids) group_results

/-- The remote group store: existing groups plus the next backend-assigned id. -/
structure RemoteState where
  groups : List CogGroup
  nextId : Nat
deriving DecidableEq, Repr

/-- Effect of one remote mutation on the group store: creation appends a
fresh-id group; a members-only POST lacks the required name and type fields,
so the backend rejects it and the store is unchanged; update replaces the
member list of the group with that id. -/
def applyAction (st : RemoteState) : GAction → RemoteState
  | GAction.create name members =>
      RemoteState.mk (st.groups ++ [CogGroup.mk st.nextId name members]) (st.nextId + 1)
  | GAction.postMembers _ => st
  | GAction.update gid members =>
      RemoteState.mk
        (st.groups.map (fun g => if g.id = gid then CogGroup.mk g.id g.name members else g))
        st.nextId

/-- The `GET /groups/?name=` search: all stored groups whose name matches the
requested name under the backend-defined predicate `nameMatch` (exact or
fuzzy). -/
def findGroupsByName (nameMatch : String → String → Bool) (st : RemoteState)
    (group : String) : List CogGroup :=
  st.groups.filter (fun g => nameMatch group g.name)

/-- One iteration of the `process_hosts` loop: build the query for the
entry's tag list, resolve the matching host ids (`poll_vectra_hosts`,
abstracted as `resolve`), and apply the mutations of `add_host_to_group`. -/
def process_hosts_entry (nameMatch : String → String → Bool)
    (resolve : String → List Nat) (active : Bool) (st : RemoteState)
    (entry : String × List String) : RemoteState :=
  (add_host_to_group entry.1 (resolve (buildQuery active entry.2))
      (findGroupsByName nameMatch st entry.1)).foldl applyAction st

/-- `process_hosts`: fold the per-entry reconciliation over the mapping. -/
def process_hosts (nameMatch : String → String → Bool)
    (resolve : String → List Nat) (active : Bool)
    (group_dict : List (String × List String)) (st : RemoteState) : RemoteState :=
  group_dict.foldl (process_hosts_entry nameMatch resolve active) st

/-- The id, name and member set of every stored group — the view of the
store that group-membership claims speak about. -/
def memberView (st : RemoteState) : List (Nat × String × Finset Nat) :=
  st.groups.map (fun g => (g.id, g.name, g.members.toFinset))

/-! ## Push mode (`__main__`, `--push` branch) -/

/-- The `--push` branch: read the mapping file, then run `process_hosts`.
A parse failure propagates out before any group mutation is computed. -/
def push_mode (nameMatch : String → String → Bool) (resolve : String → List Nat)
    (active : Bool) (st : RemoteState) (lines : List (List Char)) :
    Except Unit RemoteState :=
  match process_tag_file lines with
  | Except.error e => Except.error e
  | Except.ok mapping =>
      Except.ok (process_hosts nameMatch resolve active
        (mapping.map (fun p => (String.mk p.1, p.2.map String.mk))) st)

/-! ## Tag removal (`remove_tags`) -/

/-- The `try: tags.remove(remove) except ValueError: continue` body: remove
the first occurrence of the tag when present, otherwise leave the list
unchanged. -/
def remove_one_tag (tags : List String) (remove : String) : List String :=
  if remove ∈ tags then tags.erase remove else tags

/-- The per-host core of `remove_tags`: starting from the host's fetched tag
list, process every requested removal in order; the result is what is
patched back in a single call. -/
def remove_tags_host (tags : List String) (remove_list : List String) : List String :=
  remove_list.foldl remove_one_tag tags

/-! ## Auxiliary definitions used by the statements -/

/-- Tags the mapping-file codec round-trips: nonempty, no leading or
trailing Python whitespace, no leading `#`, free of the separators `|` `,`,
and free of the line breaks `\n` `\r` (which would split the written line
into several physical lines). -/
def goodTag (t : List Char) : Bool :=
  (!t.isEmpty) && (!(pyWhitespace (t.headD ' '))) && (decide (¬ t.headD ' ' = '#'))
    && (!(pyWhitespace (t.getLastD ' '))) && (decide (('|' : Char) ∉ t))
    && (decide ((',' : Char) ∉ t)) && (decide (('\n' : Char) ∉ t))
    && (decide (('\r' : Char) ∉ t))

/-- The store invariant the engine maintains: backend ids are distinct and
below the next id to be assigned. -/
def InvSt (st : RemoteState) : Prop :=
  (st.groups.map (fun g => g.id)).Nodup ∧ ∀ g ∈ st.groups, g.id < st.nextId

/-- Some stored group carries this exact name. -/
def HasName (st : RemoteState) (n : String) : Prop :=
  ∃ g ∈ st.groups, g.name = n

/-- Every stored group with this exact name already holds all the given
host ids. -/
def ContainsIds (st : RemoteState) (n : String) (ids : List Nat) : Prop :=
  ∀ g ∈ st.groups, g.name = n → ∀ x ∈ ids, x ∈ g.members

/-- A backend name-search predicate under which `"G"` matches both `"G"`
itself and the fuzzy candidate `"GX"`. -/
def exM : String → String → Bool := fun q c => q = "G" && (c = "G" || c = "GX")

/-- A fixed host-resolution outcome: every query resolves to host `7`. -/
def exResolve : String → List Nat := fun _ => [7]

/-- A one-entry mapping: group `"G"` gathered from tag `"t"`. -/
def exMapping : List (String × List String) := [("G", ["t"])]

/-- An initial remote store holding only the fuzzy-named group `"GX"`. -/
def exSt : RemoteState := RemoteState.mk [CogGroup.mk 0 "GX" [5]] 1

/-! ## Lemmas about the query construction -/

lemma specOrChain_cons (a : String) (ts : List String) :
    specOrChain (a :: ts) = "\"" ++ a ++ "\"" ++ orPieces ts := by
  induction ts generalizing a with
  | nil =>
    rw [show specOrChain [a] = "\"" ++ a ++ "\"" from rfl, orPieces]
    apply String.ext
    simp [String.data_append]
  | cons b ts ih =>
    rw [show specOrChain (a :: b :: ts) = "\"" ++ a ++ "\"" ++ " OR " ++ specOrChain (b :: ts)
          from rfl, ih, orPieces]
    apply String.ext
    simp [String.data_append]

lemma orLoop_mid (tag : List String) : ∀ (k count : Nat),
    tag.length = count + k → 1 ≤ count → count + 1 ≤ tag.length →
    orLoop tag ((tag.length : Int) - 1) count = orPieces (tag.drop count) ++ ")" := by
  intro k
  induction k with
  | zero => intro count h1 h2 h3; omega
  | succ n ih =>
    intro count hk h1 h2
    have hlt : count < tag.length := by omega
    rw [orLoop]
    rw [dif_pos (by omega : ((count : Nat) : Int) ≤ (tag.length : Int) - 1)]
    by_cases hlast : ((count : Nat) : Int) = (tag.length : Int) - 1
    · rw [if_pos hlast]
      have hstop : ¬ (((count + 1 : Nat) : Int) ≤ (tag.length : Int) - 1) := by omega
      rw [orLoop, dif_neg hstop]
      have hdropnil : tag.drop (count + 1) = [] := by
        apply List.drop_eq_nil_of_le
        omega
      rw [List.drop_eq_getElem_cons hlt, hdropnil, List.getD_eq_getElem _ _ hlt]
      rw [orPieces, orPieces]
      apply String.ext
      simp [String.data_append]
    · rw [if_neg hlast, if_neg (by omega : ¬ count = 0)]
      have hlast2 : count + 1 + 1 ≤ tag.length := by
        push_cast at hlast
        omega
      rw [ih (count + 1) (by omega) (by omega) hlast2]
      rw [List.drop_eq_getElem_cons hlt, List.getD_eq_getElem _ _ hlt]
      rw [orPieces]
      apply String.ext
      simp [String.data_append]

lemma buildQuery_false_eq_specFragment (tags : List String) (h : tags ≠ []) :
    buildQuery false tags = specFragment tags := by
  match tags with
  | [a] =>
    rw [buildQuery, show specFragment [a] = "host.tags:\"" ++ a ++ "\"" from rfl]
    apply String.ext
    simp [String.data_append]
  | a :: b :: ts =>
    rw [buildQuery,
      show specFragment (a :: b :: ts) = "(host.tags:" ++ specOrChain (a :: b :: ts) ++ ")"
        from rfl]
    rw [if_neg (by simp : ¬ (a :: b :: ts).length = 1)]
    rw [orLoop]
    rw [dif_pos (by simp only [List.length_cons]; push_cast; omega :
      ((0 : Nat) : Int) ≤ (((a :: b :: ts).length : Int)) - 1)]
    rw [if_neg (by simp only [List.length_cons]; push_cast; omega :
      ¬ ((0 : Nat) : Int) = (((a :: b :: ts).length : Int)) - 1)]
    rw [if_pos rfl]
    rw [orLoop_mid (a :: b :: ts) ((a :: b :: ts).length - 1) 1
      (by simp only [List.length_cons]; omega) (by omega)
      (by simp only [List.length_cons]; omega)]
    rw [specOrChain_cons]
    apply String.ext
    simp [String.data_append, List.getD]

lemma buildQuery_true_eq (tags : List String) :
    buildQuery true tags = "host.state:\"active\" AND " ++ buildQuery false tags := by
  rw [buildQuery, buildQuery]
  apply String.ext
  simp [String.data_append]

/-! ## Claim C1 -/

/-- C1: For every non-empty tag list, the query fragment built by
`process_hosts` is byte-for-byte the spec's fragment: `host.tags:"a"` with no
parentheses for a one-element list, the parenthesized OR-chain
`(host.tags:"a" OR "b" OR "c")` preserving the mapping's tag order for a
multi-element list, and, with the active-only flag set, the same fragment
prefixed with `host.state:"active" AND `. -/
theorem C1_query_fragment :
    (∀ a : String, buildQuery false [a] = "host.tags:\"" ++ a ++ "\"") ∧
    (∀ a b c : String,
      buildQuery false [a, b, c] =
        "(host.tags:\"" ++ a ++ "\" OR \"" ++ b ++ "\" OR \"" ++ c ++ "\")") ∧
    (∀ tags : List String, tags ≠ [] →
      buildQuery false tags = specFragment tags ∧
      buildQuery true tags = "host.state:\"active\" AND " ++ specFragment tags) := by
  refine ⟨?_, ?_, ?_⟩
  · intro a
    rw [buildQuery_false_eq_specFragment [a] (by simp)]
    rfl
  · intro a b c
    rw [buildQuery_false_eq_specFragment [a, b, c] (by simp)]
    rw [show specFragment [a, b, c] =
      "(host.tags:" ++ ("\"" ++ a ++ "\"" ++ " OR " ++
        ("\"" ++ b ++ "\"" ++ " OR " ++ ("\"" ++ c ++ "\""))) ++ ")" from rfl]
    apply String.ext
    simp [String.data_append]
  · intro tags h
    exact ⟨buildQuery_false_eq_specFragment tags h,
      by rw [buildQuery_true_eq, buildQuery_false_eq_specFragment tags h]⟩

/-- Witness for C1 at concrete inputs. -/
theorem C1_query_fragment_witness :
    buildQuery false ["a"] = "host.tags:\"a\"" ∧
    buildQuery false ["a", "b", "c"] = "(host.tags:\"a\" OR \"b\" OR \"c\")" ∧
    buildQuery false ["x", "y"] = specFragment ["x", "y"] ∧
    buildQuery true ["x", "y"] = "host.state:\"active\" AND " ++ specFragment ["x", "y"] := by
  refine ⟨?_, ?_, (C1_query_fragment.2.2 ["x", "y"] (by simp)).1,
    (C1_query_fragment.2.2 ["x", "y"] (by simp)).2⟩
  · rw [C1_query_fragment.1 "a"]
    rfl
  · rw [C1_query_fragment.2.1 "a" "b" "c"]
    rfl

/-! ## Lemmas about the mapping file codec -/

lemma dropWhile_append_singleton (p : Char → Bool) (a : Char) (h : p a = false) :
    ∀ u : List Char, (u ++ [a]).dropWhile p = u.dropWhile p ++ [a] := by
  intro u
  induction u with
  | nil => simp [List.dropWhile, h]
  | cons x u ih =>
    by_cases hx : p x
    · simp [List.dropWhile_cons, hx, ih]
    · simp [List.dropWhile_cons, hx]

lemma pyStrip_cons_of_head (a : Char) (t : List Char) (ha : pyWhitespace a = false) :
    pyStrip (a :: t) = a :: (t.reverse.dropWhile pyWhitespace).reverse := by
  rw [pyStrip, List.dropWhile_cons, if_neg (by simp [ha])]
  rw [List.reverse_cons, dropWhile_append_singleton _ _ ha, List.reverse_append]
  simp

lemma pyStrip_eq_self (a : Char) (t : List Char) (ha : pyWhitespace a = false)
    (hl : pyWhitespace (t.getLastD a) = false) :
    pyStrip (a :: t) = a :: t := by
  rw [pyStrip_cons_of_head a t ha]
  cases ht : t.reverse with
  | nil =>
    have : t = [] := by simpa using congrArg List.reverse ht
    simp [this]
  | cons b v =>
    have htv : t = v.reverse ++ [b] := by
      have := congrArg List.reverse ht
      simpa using this
    have hb : b = t.getLastD a := by
      rw [htv, List.getLastD_concat]
    have hbw : pyWhitespace b = false := by rw [hb]; exact hl
    rw [List.dropWhile_cons, if_neg (by simp [hbw])]
    rw [← ht]
    simp

lemma splitOnChar_ne_nil (c : Char) : ∀ s : List Char, splitOnChar c s ≠ [] := by
  intro s
  induction s with
  | nil => simp [splitOnChar]
  | cons x xs ih =>
    rw [splitOnChar]
    by_cases hx : x = c
    · simp [hx]
    · rw [if_neg hx]
      cases h : splitOnChar c xs with
      | nil => exact absurd h ih
      | cons r rs => simp

lemma splitOnChar_cons_ne (c x : Char) (xs : List Char) (hx : ¬ x = c) :
    splitOnChar c (x :: xs) =
      (x :: (splitOnChar c xs).headD []) :: (splitOnChar c xs).tail := by
  rw [splitOnChar, if_neg hx]
  cases h : splitOnChar c xs with
  | nil => exact absurd h (splitOnChar_ne_nil c xs)
  | cons r rs => simp

lemma splitOnChar_single (c : Char) : ∀ s : List Char, c ∉ s → splitOnChar c s = [s] := by
  intro s
  induction s with
  | nil => intro _; rfl
  | cons x xs ih =>
    intro h
    have hx : ¬ x = c := fun he => h (he ▸ List.mem_cons_self x xs)
    rw [splitOnChar_cons_ne c x xs hx, ih (fun hc => h (List.mem_cons_of_mem x hc))]
    simp

lemma splitOnChar_sandwich (c : Char) (u : List Char) : ∀ t : List Char, c ∉ t →
    splitOnChar c (t ++ c :: u) = t :: splitOnChar c u := by
  intro t
  induction t with
  | nil => intro _; simp [splitOnChar]
  | cons x xs ih =>
    intro h
    have hx : ¬ x = c := fun he => h (he ▸ List.mem_cons_self x xs)
    rw [List.cons_append, splitOnChar_cons_ne c x _ hx,
      ih (fun hc => h (List.mem_cons_of_mem x hc))]
    simp

lemma splitOnChar_count (c : Char) : ∀ s : List Char,
    (splitOnChar c s).length = s.count c + 1 := by
  intro s
  induction s with
  | nil => rfl
  | cons x xs ih =>
    by_cases hx : x = c
    · subst hx
      rw [splitOnChar, if_pos rfl]
      simp [ih, List.count_cons]
    · rw [splitOnChar_cons_ne c x xs hx]
      simp [List.count_cons, hx, ih]

lemma splitOnChar_not_mem (c : Char) : ∀ (s : List Char) (part : List Char),
    part ∈ splitOnChar c s → c ∉ part := by
  intro s
  induction s with
  | nil =>
    intro part hp
    simp [splitOnChar] at hp
    simp [hp]
  | cons x xs ih =>
    intro part hp
    by_cases hx : x = c
    · subst hx
      rw [splitOnChar, if_pos rfl] at hp
      rcases List.mem_cons.mp hp with h1 | h1
      · subst h1; simp
      · exact ih part h1
    · rw [splitOnChar_cons_ne c x xs hx] at hp
      have hhead : (splitOnChar c xs).headD [] ∈ splitOnChar c xs := by
        cases hh : splitOnChar c xs with
        | nil => exact absurd hh (splitOnChar_ne_nil c xs)
        | cons r rs => simp
      rcases List.mem_cons.mp hp with h1 | h1
      · subst h1
        intro hc
        rcases List.mem_cons.mp hc with h2 | h2
        · exact hx h2.symm
        · exact ih _ hhead h2
      · have hpart : part ∈ splitOnChar c xs := by
          cases hh : splitOnChar c xs with
          | nil => exact absurd hh (splitOnChar_ne_nil c xs)
          | cons r rs =>
            rw [hh] at h1
            exact List.mem_cons_of_mem r (by simpa using h1)
        exact ih part hpart

lemma ptff_cons (acc : List (List Char × List (List Char))) (l : List Char)
    (ls : List (List Char)) :
    process_tag_file_from acc (l :: ls) =
      if isComment (pyStrip l) then process_tag_file_from acc ls
      else
        match splitOnChar '|' (pyStrip l) with
        | [tag, group] => process_tag_file_from (insertA acc group (splitOnChar ',' tag)) ls
        | _ => Except.error () := rfl

/-- A non-comment line whose stripped form does not split on `|` into exactly
two pieces makes the whole read fail, whatever else the file contains. -/
lemma ptff_error (ls : List (List Char)) : ∀ acc,
    (∃ l ∈ ls, isComment (pyStrip l) = false ∧ (splitOnChar '|' (pyStrip l)).length ≠ 2) →
    process_tag_file_from acc ls = Except.error () := by
  induction ls with
  | nil => intro acc h; simp at h
  | cons l ls ih =>
    intro acc h
    rcases h with ⟨l', hl', hcom, hlen⟩
    rcases List.mem_cons.mp hl' with rfl | hmem
    · rw [ptff_cons, if_neg (by simp [hcom])]
      cases h1 : splitOnChar '|' (pyStrip l') with
      | nil => rfl
      | cons a t =>
        cases t with
        | nil => rfl
        | cons b t2 =>
          cases t2 with
          | nil => exact absurd (by simp [h1]) hlen
          | cons c2 t3 => rfl
    · rw [ptff_cons]
      by_cases hc : isComment (pyStrip l)
      · rw [if_pos hc]
        exact ih acc ⟨l', hmem, hcom, hlen⟩
      · rw [if_neg hc]
        cases h1 : splitOnChar '|' (pyStrip l) with
        | nil => rfl
        | cons a t =>
          cases t with
          | nil => rfl
          | cons b t2 =>
            cases t2 with
            | nil => exact ih _ ⟨l', hmem, hcom, hlen⟩
            | cons c2 t3 => rfl

/-- Comment lines are skipped: inserting one anywhere leaves the read
unchanged. -/
lemma ptff_comment_insert (c : List Char) (hc : isComment (pyStrip c) = true) :
    ∀ (pre post : List (List Char)) (acc : List (List Char × List (List Char))),
    process_tag_file_from acc (pre ++ c :: post) = process_tag_file_from acc (pre ++ post) := by
  intro pre
  induction pre with
  | nil =>
    intro post acc
    rw [List.nil_append, List.nil_append, ptff_cons, if_pos hc]
  | cons p pre ih =>
    intro post acc
    rw [List.cons_append, List.cons_append, ptff_cons, ptff_cons]
    by_cases hp : isComment (pyStrip p)
    · rw [if_pos hp, if_pos hp, ih]
    · rw [if_neg hp, if_neg hp]
      cases h1 : splitOnChar '|' (pyStrip p) with
      | nil => rfl
      | cons a t =>
        cases t with
        | nil => rfl
        | cons b t2 =>
          cases t2 with
          | nil => exact ih post _
          | cons c2 t3 => rfl

/-- A block of comment lines at the front is skipped wholesale. -/
lemma ptff_comment_block (ls : List (List Char))
    (h : ∀ l ∈ ls, isComment (pyStrip l) = true) :
    ∀ (rest : List (List Char)) (acc : List (List Char × List (List Char))),
    process_tag_file_from acc (ls ++ rest) = process_tag_file_from acc rest := by
  induction ls with
  | nil => intro rest acc; rw [List.nil_append]
  | cons l ls ih =>
    intro rest acc
    rw [List.cons_append, ptff_cons, if_pos (h l (List.mem_cons_self l ls))]
    exact ih (fun x hx => h x (List.mem_cons_of_mem l hx)) rest acc

lemma lookupA_map_replace_ne (k : List Char) (v : List (List Char)) (k' : List Char)
    (hne : ¬ k' = k) : ∀ a, lookupA (a.map (fun p => if p.1 = k then (k, v) else p)) k' =
      lookupA a k' := by
  intro a
  induction a with
  | nil => rfl
  | cons q a ih =>
    by_cases hq : q.1 = k
    · rw [List.map_cons, if_pos hq]
      rw [lookupA, if_neg (fun h => hne h.symm), ih, lookupA, if_neg (by rw [hq]; exact fun h => hne h.symm)]
    · rw [List.map_cons, if_neg hq]
      rw [lookupA, lookupA, ih]

lemma lookupA_map_replace_self (k : List Char) (v : List (List Char)) :
    ∀ a : List (List Char × List (List Char)), a.any (fun p => decide (p.1 = k)) = true →
    lookupA (a.map (fun p => if p.1 = k then (k, v) else p)) k = some v := by
  intro a
  induction a with
  | nil => intro h; simp at h
  | cons q a ih =>
    intro h
    by_cases hq : q.1 = k
    · rw [List.map_cons, if_pos hq, lookupA, if_pos rfl]
    · rw [List.map_cons, if_neg hq, lookupA, if_neg hq]
      apply ih
      rcases List.any_eq_true.mp h with ⟨p, hp, hdec⟩
      rcases List.mem_cons.mp hp with rfl | hmem
      · exact absurd (of_decide_eq_true hdec) hq
      · exact List.any_eq_true.mpr ⟨p, hmem, hdec⟩

lemma lookupA_append_single_ne (k : List Char) (v : List (List Char)) (k' : List Char)
    (hne : ¬ k' = k) : ∀ a, lookupA (a ++ [(k, v)]) k' = lookupA a k' := by
  intro a
  induction a with
  | nil =>
    rw [List.nil_append]
    show (if (k = k') then some v else lookupA [] k') = lookupA [] k'
    rw [if_neg (fun h => hne h.symm)]
  | cons q a ih => rw [List.cons_append, lookupA, lookupA, ih]

lemma lookupA_append_single_self (k : List Char) (v : List (List Char)) :
    ∀ a : List (List Char × List (List Char)), a.any (fun p => decide (p.1 = k)) = false →
    lookupA (a ++ [(k, v)]) k = some v := by
  intro a
  induction a with
  | nil =>
    intro _
    rw [List.nil_append]
    show (if (k = k) then some v else lookupA [] k) = some v
    rw [if_pos rfl]
  | cons q a ih =>
    intro h
    rw [List.any_cons] at h
    rcases Bool.or_eq_false_iff.mp h with ⟨h1, h2⟩
    have hq : ¬ q.1 = k := of_decide_eq_false h1
    rw [List.cons_append, lookupA, if_neg hq, ih h2]

lemma lookupA_insertA (a : List (List Char × List (List Char))) (k : List Char)
    (v : List (List Char)) (k' : List Char) :
    lookupA (insertA a k v) k' = if k' = k then some v else lookupA a k' := by
  rw [insertA]
  by_cases hany : a.any (fun p => decide (p.1 = k)) = true
  · rw [if_pos hany]
    by_cases hk : k' = k
    · rw [if_pos hk, hk, lookupA_map_replace_self k v a hany]
    · rw [if_neg hk, lookupA_map_replace_ne k v k' hk a]
  · rw [if_neg hany]
    by_cases hk : k' = k
    · rw [if_pos hk, hk, lookupA_append_single_self k v a (Bool.not_eq_true _ ▸ hany)]
    · rw [if_neg hk, lookupA_append_single_ne k v k' hk a]

lemma lookup_fold_insert (f : List Char → List (List Char)) :
    ∀ (ts : List (List Char)) (acc : List (List Char × List (List Char))) (k : List Char),
    lookupA (ts.foldl (fun a t => insertA a t (f t)) acc) k =
      if k ∈ ts then some (f k) else lookupA acc k := by
  intro ts
  induction ts with
  | nil => intro acc k; simp
  | cons t ts ih =>
    intro acc k
    rw [List.foldl_cons, ih]
    by_cases hts : k ∈ ts
    · rw [if_pos hts, if_pos (List.mem_cons_of_mem t hts)]
    · rw [if_neg hts, lookupA_insertA]
      by_cases hkt : k = t
      · rw [if_pos hkt, hkt, if_pos (List.mem_cons_self t ts)]
      · rw [if_neg hkt, if_neg (by simp [hkt, hts])]

lemma insertA_mem (a : List (List Char × List (List Char))) (k : List Char)
    (v : List (List Char)) (p : List Char × List (List Char)) (hp : p ∈ insertA a k v) :
    p ∈ a ∨ p.1 = k := by
  rw [insertA] at hp
  by_cases hany : a.any (fun q => decide (q.1 = k)) = true
  · rw [if_pos hany] at hp
    rcases List.mem_map.mp hp with ⟨q, hq, heq⟩
    by_cases hqk : q.1 = k
    · rw [if_pos hqk] at heq
      right
      rw [← heq]
    · rw [if_neg hqk] at heq
      left
      rw [← heq]
      exact hq
  · rw [if_neg hany] at hp
    rcases List.mem_append.mp hp with h | h
    · exact Or.inl h
    · right
      rcases List.mem_singleton.mp h with rfl
      rfl

/-- Every group-name key of an accepted mapping came out of a `|`-split, so
it contains no `|`; nothing else about its characters is checked. -/
lemma ptff_keys (ls : List (List Char)) : ∀ acc m,
    process_tag_file_from acc ls = Except.ok m →
    (∀ p ∈ acc, ('|' : Char) ∉ p.1) → ∀ p ∈ m, ('|' : Char) ∉ p.1 := by
  induction ls with
  | nil =>
    intro acc m hok hacc
    rw [process_tag_file_from] at hok
    cases hok
    exact hacc
  | cons l ls ih =>
    intro acc m hok hacc
    rw [ptff_cons] at hok
    by_cases hc : isComment (pyStrip l)
    · rw [if_pos hc] at hok
      exact ih acc m hok hacc
    · rw [if_neg hc] at hok
      cases h1 : splitOnChar '|' (pyStrip l) with
      | nil => rw [h1] at hok; cases hok
      | cons a t =>
        cases t with
        | nil => rw [h1] at hok; cases hok
        | cons b t2 =>
          cases t2 with
          | nil =>
            rw [h1] at hok
            apply ih _ m hok
            intro p hp
            rcases insertA_mem _ _ _ p hp with hmem | hkey
            · exact hacc p hmem
            · rw [hkey]
              exact splitOnChar_not_mem '|' (pyStrip l) b
                (by rw [h1]; exact List.mem_cons_of_mem a (List.mem_cons_self b []))
          | cons c2 t3 => rw [h1] at hok; cases hok

/-- Tags the mapping-file codec round-trips: nonempty, no leading or
trailing whitespace, no leading `#`, and free of the separators `|` `,`. -/

lemma getLastD_append_right (u : List Char) (v : List Char) (d e : Char) (hv : v ≠ []) :
    (u ++ v).getLastD d = v.getLastD e := by
  induction u generalizing d with
  | nil =>
    rw [List.nil_append]
    cases v with
    | nil => exact absurd rfl hv
    | cons x v' => rw [List.getLastD_cons, List.getLastD_cons]
  | cons x u ih =>
    rw [List.cons_append, List.getLastD_cons, ih x]

lemma goodTag_parts (t : List Char) (h : goodTag t = true) :
    t ≠ [] ∧ pyWhitespace (t.headD ' ') = false ∧ ¬ t.headD ' ' = '#' ∧
      pyWhitespace (t.getLastD ' ') = false ∧ ('|' : Char) ∉ t ∧ (',' : Char) ∉ t ∧
      ('\n' : Char) ∉ t ∧ ('\r' : Char) ∉ t := by
  rw [goodTag] at h
  simp only [Bool.and_eq_true, Bool.not_eq_true', decide_eq_true_eq] at h
  refine ⟨?_, h.1.1.1.1.1.1.2, h.1.1.1.1.1.2, h.1.1.1.1.2, h.1.1.1.2, h.1.1.2, h.1.2, h.2⟩
  intro he
  rw [he] at h
  simp at h

lemma tagLine_strip (t : List Char) (h : goodTag t = true) :
    pyStrip (t ++ '|' :: t) = t ++ '|' :: t := by
  rcases goodTag_parts t h with ⟨hne, hws, _hh, hlast, _hsep, _hcomma, _hn, _hr⟩
  cases t with
  | nil => exact absurd rfl hne
  | cons a t' =>
    rw [List.cons_append]
    apply pyStrip_eq_self
    · simpa using hws
    · rw [getLastD_append_right t' ('|' :: (a :: t')) a ' ' (by simp)]
      rw [List.getLastD_cons, List.getLastD_cons]
      rw [List.getLastD_cons] at hlast
      exact hlast

lemma tagLine_not_comment (t : List Char) (h : goodTag t = true) :
    isComment (pyStrip (t ++ '|' :: t)) = false := by
  rcases goodTag_parts t h with ⟨hne, _hws, hh, _⟩
  rw [tagLine_strip t h]
  cases t with
  | nil => exact absurd rfl hne
  | cons a t' =>
    rw [List.cons_append, isComment]
    simpa using hh

lemma tagLine_split (t : List Char) (h : goodTag t = true) :
    splitOnChar '|' (pyStrip (t ++ '|' :: t)) = [t, t] := by
  rcases goodTag_parts t h with ⟨_hne, _hws, _hh, _hlast, hsep, _hcomma, _hn, _hr⟩
  rw [tagLine_strip t h, splitOnChar_sandwich '|' t t hsep, splitOnChar_single '|' t hsep]

lemma ptff_tagLines (ts : List (List Char)) (hgood : ∀ t ∈ ts, goodTag t = true) :
    ∀ acc, process_tag_file_from acc (ts.map (fun t => t ++ '|' :: t)) =
      Except.ok (ts.foldl (fun a t => insertA a t [t]) acc) := by
  induction ts with
  | nil => intro acc; rfl
  | cons t ts ih =>
    intro acc
    have hgt := hgood t (List.mem_cons_self t ts)
    rcases goodTag_parts t hgt with ⟨_hne, _hws, _hh, _hlast, _hsep, hcomma, _hn, _hr⟩
    rw [List.map_cons, ptff_cons, if_neg (by simp [tagLine_not_comment t hgt])]
    rw [tagLine_split t hgt]
    show process_tag_file_from (insertA acc t (splitOnChar ',' t))
        (ts.map (fun t => t ++ '|' :: t)) = _
    rw [splitOnChar_single ',' t hcomma]
    rw [ih (fun x hx => hgood x (List.mem_cons_of_mem t hx))]
    rw [List.foldl_cons]

lemma header_all_comment : ∀ l ∈ header_lines, isComment (pyStrip l) = true := by decide

lemma header_break_free : ∀ l ∈ header_lines, ('\r' : Char) ∉ l ∧ ('\n' : Char) ∉ l := by
  decide

lemma spl_ne_nil : ∀ s, splitPhysicalLines s ≠ [] := by
  intro s
  rw [splitPhysicalLines.eq_def]
  split
  · simp
  · simp
  · simp
  · simp
  · split
    · simp
    · simp

lemma spl_cons_ne (x : Char) (xs : List Char) (hr : ¬ x = '\r') (hn : ¬ x = '\n') :
    splitPhysicalLines (x :: xs) =
      (x :: (splitPhysicalLines xs).headD []) :: (splitPhysicalLines xs).tail := by
  rw [splitPhysicalLines.eq_def]
  split
  · simp_all
  · simp_all
  · simp_all
  · simp_all
  · rename_i heq
    cases heq' : splitPhysicalLines xs with
    | nil => exact absurd heq' (spl_ne_nil xs)
    | cons r rs =>
      injection heq with h1 h2
      subst h1
      subst h2
      simp [heq']

lemma spl_cons_nl (rest : List Char) :
    splitPhysicalLines ('\n' :: rest) = [] :: splitPhysicalLines rest := by
  rw [splitPhysicalLines.eq_def]
  split
  · simp_all
  · simp_all
  · simp_all
  · simp_all
  · rename_i hne1 hne2 heq
    injection heq with h1 h2
    exact absurd h1.symm hne2

lemma spl_break_free (l : List Char) (hr : ('\r' : Char) ∉ l) (hn : ('\n' : Char) ∉ l)
    (rest : List Char) :
    splitPhysicalLines (l ++ '\n' :: rest) = l :: splitPhysicalLines rest := by
  induction l with
  | nil =>
    rw [List.nil_append]
    exact spl_cons_nl rest
  | cons x xs ih =>
    have hrx : ¬ x = '\r' := fun he => hr (he ▸ List.mem_cons_self x xs)
    have hnx : ¬ x = '\n' := fun he => hn (he ▸ List.mem_cons_self x xs)
    rw [List.cons_append, spl_cons_ne x _ hrx hnx,
      ih (fun hc => hr (List.mem_cons_of_mem x hc)) (fun hc => hn (List.mem_cons_of_mem x hc))]
    simp

lemma stream_lines (lines : List (List Char))
    (h : ∀ l ∈ lines, ('\r' : Char) ∉ l ∧ ('\n' : Char) ∉ l) :
    splitPhysicalLines (file_stream lines) = lines ++ [[]] := by
  induction lines with
  | nil => rfl
  | cons l ls ih =>
    have hl := h l (List.mem_cons_self l ls)
    show splitPhysicalLines (l ++ '\n' :: file_stream ls) = _
    rw [spl_break_free l hl.1 hl.2, ih (fun x hx => h x (List.mem_cons_of_mem l hx))]
    rfl

lemma pyReadLines_stream (lines : List (List Char))
    (h : ∀ l ∈ lines, ('\r' : Char) ∉ l ∧ ('\n' : Char) ∉ l) :
    pyReadLines (file_stream lines) = lines := by
  rw [pyReadLines, stream_lines lines h]
  rw [if_pos (by rw [List.getLastD_concat])]
  rw [List.dropLast_concat]

/-! ## Claim C6 -/

/-- C6 (amended): writing a tag set through `gen_tag_file` with the default
suggestions and reading it back with `process_tag_file` yields the mapping
sending each tag `t` to `[t]`, for every tag set whose tags are nonempty,
free of leading or trailing Python whitespace, not comment-like, and free of
the separators `|` `,` and the line breaks. -/
theorem C6_roundtrip_good (ts : List (List Char)) (hgood : ∀ t ∈ ts, goodTag t = true) :
    ∃ m, process_tag_file (gen_tag_file ts) = Except.ok m ∧
      (∀ t ∈ ts, lookupA m t = some [t]) ∧ (∀ k, k ∉ ts → lookupA m k = none) := by
  refine ⟨ts.foldl (fun a t => insertA a t [t]) [], ?_, ?_, ?_⟩
  · have hbreak : ∀ l ∈ header_lines ++ ts.map (fun t => t ++ '|' :: t),
        ('\r' : Char) ∉ l ∧ ('\n' : Char) ∉ l := by
      intro l hl
      rcases List.mem_append.mp hl with h1 | h1
      · exact header_break_free l h1
      · rcases List.mem_map.mp h1 with ⟨t, ht, rfl⟩
        rcases goodTag_parts t (hgood t ht) with ⟨_, _, _, _, _, _, hn, hr⟩
        constructor
        · intro hc
          rcases List.mem_append.mp hc with hc | hc
          · exact hr hc
          · rcases List.mem_cons.mp hc with hc | hc
            · exact absurd hc (by decide)
            · exact hr hc
        · intro hc
          rcases List.mem_append.mp hc with hc | hc
          · exact hn hc
          · rcases List.mem_cons.mp hc with hc | hc
            · exact absurd hc (by decide)
            · exact hn hc
    rw [process_tag_file, gen_tag_file, pyReadLines_stream _ hbreak,
      ptff_comment_block header_lines header_all_comment]
    exact ptff_tagLines ts hgood []
  · intro t ht
    rw [lookup_fold_insert (fun t => [t]) ts [] t, if_pos ht]
  · intro k hk
    rw [lookup_fold_insert (fun t => [t]) ts [] k, if_neg hk]
    rfl

/-- C6 counterexample: the tag `"#"` is written by the codec but read back
as a comment line, so the unrestricted round-trip claim fails. -/
theorem C6_counterexample :
    process_tag_file (gen_tag_file [['#']]) = Except.ok [] ∧
    (Except.ok [] : Except Unit (List (List Char × List (List Char)))) ≠
      Except.ok [(['#'], [['#']])] := by
  constructor
  · rfl
  · intro h
    have := Except.ok.inj h
    simp at this

/-- Witness for the amended C6 at the spec's `{"x","y"}` example. -/
theorem C6_roundtrip_good_witness :
    (∀ t ∈ [("x").data, ("y").data], goodTag t = true) ∧
    (∃ m, process_tag_file (gen_tag_file [("x").data, ("y").data]) = Except.ok m ∧
      (∀ t ∈ [("x").data, ("y").data], lookupA m t = some [t]) ∧
      (∀ k, k ∉ [("x").data, ("y").data] → lookupA m k = none)) :=
  ⟨by decide, C6_roundtrip_good [("x").data, ("y").data] (by decide)⟩

/-! ## Lemmas about `add_host_to_group` -/

lemma add_host_loop_exact (group : String) (host_ids : List Nat) :
    ∀ (l : List CogGroup) (body : GAction), (∀ g ∈ l, g.name = group) →
    add_host_loop group host_ids body l =
      l.map (fun it => GAction.update it.id (mergeMembers it.members host_ids)) := by
  intro l
  induction l with
  | nil => intro body _; rfl
  | cons g rs ih =>
    intro body hall
    rw [add_host_loop, if_pos (hall g (List.mem_cons_self g rs))]
    rw [ih _ (fun x hx => hall x (List.mem_cons_of_mem g hx)), List.map_cons]

lemma add_host_loop_fuzzy (group : String) (host_ids : List Nat) (body : GAction) :
    ∀ l : List CogGroup, (∀ g ∈ l, ¬ g.name = group) →
    add_host_loop group host_ids body l = l.map (fun _ => body) := by
  intro l
  induction l with
  | nil => intro _; rfl
  | cons g rs ih =>
    intro hall
    rw [add_host_loop, if_neg (hall g (List.mem_cons_self g rs))]
    rw [ih (fun x hx => hall x (List.mem_cons_of_mem g hx)), List.map_cons]

lemma add_host_loop_append_fuzzy (group : String) (host_ids : List Nat) (body : GAction) :
    ∀ (pre rest : List CogGroup), (∀ g ∈ pre, ¬ g.name = group) →
    add_host_loop group host_ids body (pre ++ rest) =
      pre.map (fun _ => body) ++ add_host_loop group host_ids body rest := by
  intro pre
  induction pre with
  | nil => intro rest _; rfl
  | cons g ps ih =>
    intro rest hall
    rw [List.cons_append, add_host_loop, if_neg (hall g (List.mem_cons_self g ps))]
    rw [ih rest (fun x hx => hall x (List.mem_cons_of_mem g hx)), List.map_cons, List.cons_append]

/-! ## Claim C2 -/

/-- C2: For an exactly matching existing group, the membership written back
is the set union of the pre-existing member ids and the newly resolved ids,
duplicates collapsed, order irrelevant; existing `{1,2}` merged with new
`{2,3}` carries exactly `{1,2,3}`. -/
theorem C2_merge_is_union :
    (∀ (pre new : List Nat) (x : Nat), x ∈ mergeMembers pre new ↔ x ∈ pre ∨ x ∈ new) ∧
    (∀ (group : String) (host_ids : List Nat) (g : CogGroup), g.name = group →
      add_host_to_group group host_ids [g] =
        [GAction.update g.id (mergeMembers g.members host_ids)]) ∧
    (mergeMembers [1, 2] [2, 3]).toFinset = ({1, 2, 3} : Finset ℕ) := by
  refine ⟨?_, ?_, by decide⟩
  · intro pre new x
    rw [mergeMembers, List.mem_dedup, List.mem_append]
  · intro group host_ids g hg
    rw [add_host_to_group, if_neg (by simp), add_host_loop, if_pos hg]
    rfl

/-- Witness for C2 at the spec's concrete membership example. -/
theorem C2_merge_is_union_witness :
    (3 ∈ mergeMembers [1, 2] [2, 3] ↔ 3 ∈ [1, 2] ∨ 3 ∈ [2, 3]) ∧
    add_host_to_group "G" [2, 3] [CogGroup.mk 5 "G" [1, 2]] =
      [GAction.update 5 (mergeMembers [1, 2] [2, 3])] :=
  ⟨C2_merge_is_union.1 [1, 2] [2, 3] 3,
   C2_merge_is_union.2.1 "G" [2, 3] (CogGroup.mk 5 "G" [1, 2]) rfl⟩

/-! ## Claim C3 -/

/-- C3: When the name search returns only fuzzy (non-exact) matches, the
engine issues one fresh creation with the target name and the newly resolved
ids per returned match — no merge, no error. -/
theorem C3_fuzzy_only_creates :
    ∀ (group : String) (host_ids : List Nat) (results : List CogGroup),
      results ≠ [] → (∀ g ∈ results, ¬ g.name = group) →
      add_host_to_group group host_ids results =
        results.map (fun _ => GAction.create group host_ids) := by
  intro group host_ids results hne hf
  rw [add_host_to_group, if_neg hne]
  exact add_host_loop_fuzzy group host_ids (GAction.create group host_ids) results hf

/-- Witness for C3: a lone fuzzy match `GX` for target `G`. -/
theorem C3_fuzzy_only_creates_witness :
    add_host_to_group "G" [7] [CogGroup.mk 0 "GX" [5]] =
      [CogGroup.mk 0 "GX" [5]].map (fun _ => GAction.create "G" [7]) :=
  C3_fuzzy_only_creates "G" [7] [CogGroup.mk 0 "GX" [5]] (by simp) (by decide)

/-! ## Claim C5 -/

/-- C5: Tag removal removes each requested tag that is present, silently
skips each absent one, and the written-back list reflects exactly that; a
host with tags `{"x"}` and removal set `{"x","z"}` ends with `{}` and no
error. -/
theorem C5_tag_removal_tolerant :
    (∀ (current remove_list : List String), current.Nodup →
      ∀ t, t ∈ remove_tags_host current remove_list ↔ t ∈ current ∧ t ∉ remove_list) ∧
    remove_tags_host ["x"] ["x", "z"] = [] := by
  constructor
  · intro current remove_list
    induction remove_list generalizing current with
    | nil =>
      intro _ t
      simp [remove_tags_host]
    | cons r rs ih =>
      intro hnd t
      have h1 : remove_one_tag current r = current.erase r := by
        rw [remove_one_tag]
        by_cases hr : r ∈ current
        · rw [if_pos hr]
        · rw [if_neg hr, List.erase_of_not_mem hr]
      rw [remove_tags_host, List.foldl_cons, h1]
      have h2 := ih (current.erase r) (hnd.erase r) t
      rw [remove_tags_host] at h2
      rw [h2, List.Nodup.mem_erase_iff hnd]
      simp only [List.mem_cons]
      tauto
  · rfl

/-- Witness for C5 at the spec's concrete example. -/
theorem C5_tag_removal_tolerant_witness :
    (["x", "w"] : List String).Nodup ∧
    ("w" ∈ remove_tags_host ["x", "w"] ["x", "z"] ↔
      "w" ∈ (["x", "w"] : List String) ∧ "w" ∉ (["x", "z"] : List String)) ∧
    remove_tags_host ["x"] ["x", "z"] = [] :=
  ⟨by decide, C5_tag_removal_tolerant.1 ["x", "w"] ["x", "z"] (by decide) "w",
   C5_tag_removal_tolerant.2⟩

/-! ## Claim C7 -/

/-- C7: Reading fails whenever some non-comment line does not contain
exactly one `|`, in push mode the failure propagates before any remote
mutation is computed, and comment lines never cause the failure. -/
theorem C7_parse_error_halts :
    (∀ lines : List (List Char),
      (∃ l ∈ lines, isComment (pyStrip l) = false ∧ (pyStrip l).count '|' ≠ 1) →
      process_tag_file lines = Except.error () ∧
      ∀ (nameMatch : String → String → Bool) (resolve : String → List Nat)
        (active : Bool) (st : RemoteState),
        push_mode nameMatch resolve active st lines = Except.error ()) ∧
    (∀ (pre post : List (List Char)) (c : List Char), isComment (pyStrip c) = true →
      process_tag_file (pre ++ c :: post) = process_tag_file (pre ++ post)) := by
  constructor
  · intro lines hbad
    rcases hbad with ⟨l, hl, hcom, hcnt⟩
    have herr : process_tag_file lines = Except.error () := by
      rw [process_tag_file]
      apply ptff_error
      refine ⟨l, hl, hcom, ?_⟩
      rw [splitOnChar_count]
      omega
    refine ⟨herr, fun nameMatch resolve active st => ?_⟩
    rw [push_mode, herr]
  · intro pre post c hc
    rw [process_tag_file, process_tag_file, ptff_comment_insert c hc pre post]

/-- Witness for C7: a separator-free line fails the read and push mode; a
comment line is skipped. -/
theorem C7_parse_error_halts_witness :
    (∃ l ∈ [("zz").data], isComment (pyStrip l) = false ∧ (pyStrip l).count '|' ≠ 1) ∧
    process_tag_file [("zz").data] = Except.error () ∧
    push_mode (fun _ _ => false) (fun _ => []) false (RemoteState.mk [] 0)
      [("zz").data] = Except.error () ∧
    isComment (pyStrip ("#c").data) = true ∧
    process_tag_file ([("a|b").data] ++ ("#c").data :: []) =
      process_tag_file ([("a|b").data] ++ []) := by
  have hbad : ∃ l ∈ [("zz").data], isComment (pyStrip l) = false ∧
      (pyStrip l).count '|' ≠ 1 := by decide
  have h1 := (C7_parse_error_halts.1 [("zz").data] hbad).1
  have h2 := (C7_parse_error_halts.1 [("zz").data] hbad).2
    (fun _ _ => false) (fun _ => []) false (RemoteState.mk [] 0)
  have h3 := C7_parse_error_halts.2 [("a|b").data] [] ("#c").data (by decide)
  exact ⟨hbad, h1, h2, by decide, h3⟩

/-! ## Claim C8 -/

/-- C8 counterexample: the read accepts a group name containing `!`, so the
claimed invariant is not enforced. -/
theorem C8_counterexample :
    process_tag_file [("a|b!").data] = Except.ok [(("b!").data, [("a").data])] ∧
    ('!' : Char) ∈ ("b!").data := ⟨rfl, by decide⟩

/-- C8 (amended): the read enforces no character restriction on group names
beyond what splitting imposes — every accepted group-name key merely
contains no `|`; names with `! @ % & * ) (` are accepted as-is. -/
theorem C8_keys_no_separator :
    ∀ (lines : List (List Char)) (m : List (List Char × List (List Char))),
      process_tag_file lines = Except.ok m → ∀ p ∈ m, ('|' : Char) ∉ p.1 := by
  intro lines m hok
  exact ptff_keys lines [] m hok (by simp)

/-- Witness for the amended C8. -/
theorem C8_keys_no_separator_witness :
    process_tag_file [("a|b").data] = Except.ok [(("b").data, [("a").data])] ∧
    ('|' : Char) ∉ ("b").data :=
  ⟨rfl, C8_keys_no_separator [("a|b").data] [(("b").data, [("a").data])] rfl
    (("b").data, [("a").data]) (List.mem_singleton.mpr rfl)⟩

/-! ## Claim C10 -/

/-- C10: A blank or whitespace-only line is not matched by the comment
pattern and its `|`-split cannot yield a pair, so reading fails with an
error instead of skipping the line. -/
theorem C10_blank_line_error :
    ∀ (lines : List (List Char)) (l : List Char), l ∈ lines → pyStrip l = [] →
      process_tag_file lines = Except.error () := by
  intro lines l hl hstrip
  rw [process_tag_file]
  apply ptff_error
  refine ⟨l, hl, ?_, ?_⟩
  · rw [hstrip]
    rfl
  · rw [hstrip]
    decide

/-- Witness for C10: a whitespace-only line amid valid lines fails the read. -/
theorem C10_blank_line_error_witness :
    ((" ").data ∈ [(" ").data, ("a|b").data]) ∧ pyStrip ((" ").data) = [] ∧
    process_tag_file [(" ").data, ("a|b").data] = Except.error () :=
  ⟨by decide, by decide,
   C10_blank_line_error [(" ").data, ("a|b").data] ((" ").data) (by decide) (by decide)⟩

/-! ## Claim C9 -/

/-- C9 counterexample: with the exact match first and a fuzzy match after
it, the fuzzy iteration POSTs the rebound members-only body instead of a
fresh creation carrying the target name and the newly resolved ids. -/
theorem C9_counterexample :
    add_host_to_group "G" [4] [CogGroup.mk 1 "G" [1], CogGroup.mk 2 "GX" []] =
      [GAction.update 1 (mergeMembers [1] [4]),
       GAction.postMembers (mergeMembers [1] [4])] ∧
    GAction.create "G" [4] ∉
      add_host_to_group "G" [4] [CogGroup.mk 1 "G" [1], CogGroup.mk 2 "GX" []] := by
  constructor
  · rfl
  · decide

/-- C9 (amended): when the search returns one exact match among fuzzy
matches, the engine issues the merged-membership update on the exact match
and one POST per fuzzy match — those iterated before the exact match as
fresh creations with the target name and the newly resolved ids, those
iterated after it with the rebound members-only body (no name), because the
exact branch rebinds the request body. -/
theorem C9_update_then_posts :
    ∀ (group : String) (host_ids : List Nat) (e : CogGroup) (pre post : List CogGroup),
      e.name = group → (∀ g ∈ pre, ¬ g.name = group) → (∀ g ∈ post, ¬ g.name = group) →
      add_host_to_group group host_ids (pre ++ e :: post) =
        pre.map (fun _ => GAction.create group host_ids) ++
          GAction.update e.id (mergeMembers e.members host_ids) ::
            post.map (fun _ => GAction.postMembers (mergeMembers e.members host_ids)) := by
  intro group host_ids e pre post he hpre hpost
  rw [add_host_to_group, if_neg (by simp)]
  rw [add_host_loop_append_fuzzy group host_ids _ pre (e :: post) hpre]
  rw [add_host_loop, if_pos he]
  rw [add_host_loop_fuzzy group host_ids _ post hpost]

/-- Witness for the amended C9: fuzzy `GX` before and fuzzy `GY` after the
exact match `G`. -/
theorem C9_update_then_posts_witness :
    (∀ g ∈ [CogGroup.mk 0 "GX" [5]], ¬ g.name = "G") ∧
    (∀ g ∈ [CogGroup.mk 2 "GY" []], ¬ g.name = "G") ∧
    add_host_to_group "G" [4]
        ([CogGroup.mk 0 "GX" [5]] ++ CogGroup.mk 1 "G" [1] :: [CogGroup.mk 2 "GY" []]) =
      [CogGroup.mk 0 "GX" [5]].map (fun _ => GAction.create "G" [4]) ++
        GAction.update 1 (mergeMembers [1] [4]) ::
          [CogGroup.mk 2 "GY" []].map (fun _ => GAction.postMembers (mergeMembers [1] [4])) :=
  ⟨by decide, by decide,
   C9_update_then_posts "G" [4] (CogGroup.mk 1 "G" [1]) [CogGroup.mk 0 "GX" [5]]
     [CogGroup.mk 2 "GY" []] rfl (by decide) (by decide)⟩

/-! ## Lemmas about the reconciliation state machine -/

lemma merge_toFinset (a b : List Nat) :
    (mergeMembers a b).toFinset = a.toFinset ∪ b.toFinset := by
  ext x
  simp [mergeMembers, List.mem_dedup]

lemma idInj (l : List CogGroup) (h : (l.map (fun g => g.id)).Nodup) :
    ∀ g1 ∈ l, ∀ g2 ∈ l, g1.id = g2.id → g1 = g2 :=
  List.inj_on_of_nodup_map h

lemma foldl_updates (f : CogGroup → List Nat) :
    ∀ (items : List CogGroup) (st : RemoteState),
      (∀ it ∈ items, ∀ g ∈ st.groups, g.id = it.id → g = it) →
      ((items.map (fun it => it.id)).Nodup) →
      (items.map (fun it => GAction.update it.id (f it))).foldl applyAction st =
        RemoteState.mk
          (st.groups.map (fun g =>
            if g.id ∈ items.map (fun it => it.id) then CogGroup.mk g.id g.name (f g) else g))
          st.nextId := by
  intro items
  induction items with
  | nil =>
    intro st _ _
    cases st with
    | mk groups nextId => simp
  | cons it items ih =>
    intro st hagree hnodup
    rw [List.map_cons, List.foldl_cons]
    rw [show applyAction st (GAction.update it.id (f it)) =
      RemoteState.mk (st.groups.map (fun g =>
        if g.id = it.id then CogGroup.mk g.id g.name (f it) else g)) st.nextId from rfl]
    rw [List.map_cons, List.nodup_cons] at hnodup
    have hid_notmem : it.id ∉ items.map (fun it => it.id) := hnodup.1
    have hagree' : ∀ it' ∈ items, ∀ g' ∈ (st.groups.map (fun g =>
        if g.id = it.id then CogGroup.mk g.id g.name (f it) else g)),
        g'.id = it'.id → g' = it' := by
      intro it' hit' g' hg' hgid
      rcases List.mem_map.mp hg' with ⟨g, hg, rfl⟩
      by_cases hcase : g.id = it.id
      · rw [if_pos hcase] at hgid ⊢
        exfalso
        apply hid_notmem
        have hit'id : it'.id = it.id := by
          rw [← hgid]
          exact hcase
        exact List.mem_map.mpr ⟨it', hit', hit'id⟩
      · rw [if_neg hcase] at hgid ⊢
        exact hagree it' (List.mem_cons_of_mem it hit') g hg hgid
    rw [ih (RemoteState.mk (st.groups.map (fun g =>
        if g.id = it.id then CogGroup.mk g.id g.name (f it) else g)) st.nextId) hagree' hnodup.2]
    rw [RemoteState.mk.injEq]
    refine ⟨?_, rfl⟩
    rw [List.map_map]
    apply List.map_congr_left
    intro g hg
    simp only [Function.comp_apply]
    by_cases hcase : g.id = it.id
    · have hgit : g = it := hagree it (List.mem_cons_self it items) g hg hcase
      rw [if_pos hcase]
      have houter : (CogGroup.mk g.id g.name (f it)).id ∉ items.map (fun it => it.id) := by
        show g.id ∉ items.map (fun it => it.id)
        rw [hcase]
        exact hid_notmem
      rw [if_neg houter]
      have hin : g.id ∈ (it :: items).map (fun it => it.id) := by
        rw [List.map_cons]
        exact List.mem_cons.mpr (Or.inl hcase)
      rw [if_pos hin, hgit]
    · rw [if_neg hcase]
      by_cases hmem : g.id ∈ items.map (fun it => it.id)
      · have hin : g.id ∈ (it :: items).map (fun it => it.id) := by
          rw [List.map_cons]
          exact List.mem_cons.mpr (Or.inr hmem)
        rw [if_pos hmem, if_pos hin]
      · have hout : g.id ∉ (it :: items).map (fun it => it.id) := by
          rw [List.map_cons]
          intro hc
          rcases List.mem_cons.mp hc with hc1 | hc2
          · exact hcase hc1
          · exact hmem hc2
        rw [if_neg hmem, if_neg hout]

lemma entry_step_empty (nameMatch : String → String → Bool) (resolve : String → List Nat)
    (active : Bool) (st : RemoteState) (name : String) (tags : List String)
    (hres : st.groups.filter (fun g => nameMatch name g.name) = []) :
    process_hosts_entry nameMatch resolve active st (name, tags) =
      RemoteState.mk
        (st.groups ++ [CogGroup.mk st.nextId name (resolve (buildQuery active tags))])
        (st.nextId + 1) := by
  show (add_host_to_group name (resolve (buildQuery active tags))
      (findGroupsByName nameMatch st name)).foldl applyAction st = _
  rw [findGroupsByName, hres, add_host_to_group, if_pos rfl]
  rfl

lemma entry_step_exact (nameMatch : String → String → Bool) (resolve : String → List Nat)
    (active : Bool) (st : RemoteState) (name : String) (tags : List String)
    (hne : st.groups.filter (fun g => nameMatch name g.name) ≠ [])
    (hmatch : ∀ g ∈ st.groups, nameMatch name g.name = true → g.name = name)
    (hnodup : (st.groups.map (fun g => g.id)).Nodup) :
    process_hosts_entry nameMatch resolve active st (name, tags) =
      RemoteState.mk
        (st.groups.map (fun g =>
          if nameMatch name g.name = true then
            CogGroup.mk g.id g.name
              (mergeMembers g.members (resolve (buildQuery active tags)))
          else g))
        st.nextId := by
  show (add_host_to_group name (resolve (buildQuery active tags))
      (findGroupsByName nameMatch st name)).foldl applyAction st = _
  rw [findGroupsByName, add_host_to_group, if_neg hne]
  have hitems : ∀ it ∈ st.groups.filter (fun g => nameMatch name g.name),
      it ∈ st.groups ∧ nameMatch name it.name = true := by
    intro it hit
    exact List.mem_filter.mp hit
  rw [add_host_loop_exact name (resolve (buildQuery active tags))
    (st.groups.filter (fun g => nameMatch name g.name))
    (GAction.create name (resolve (buildQuery active tags)))
    (fun it hit => hmatch it (hitems it hit).1 (hitems it hit).2)]
  have hsubl : List.Sublist
      ((st.groups.filter (fun g => nameMatch name g.name)).map (fun it => it.id))
      (st.groups.map (fun g => g.id)) := (List.filter_sublist _).map _
  rw [foldl_updates (fun it => mergeMembers it.members (resolve (buildQuery active tags)))
    (st.groups.filter (fun g => nameMatch name g.name)) st
    (fun it hit g hg hid => idInj st.groups hnodup g hg it (hitems it hit).1 hid)
    (hnodup.sublist hsubl)]
  rw [RemoteState.mk.injEq]
  refine ⟨?_, rfl⟩
  apply List.map_congr_left
  intro g hg
  by_cases hp : nameMatch name g.name = true
  · rw [if_pos ?hin, if_pos hp]
    case hin =>
      exact List.mem_map.mpr ⟨g, List.mem_filter.mpr ⟨hg, hp⟩, rfl⟩
  · rw [if_neg ?hout, if_neg hp]
    case hout =>
      intro hc
      rcases List.mem_map.mp hc with ⟨it, hit, hitid⟩
      have : it = g := idInj st.groups hnodup it (hitems it hit).1 g hg hitid
      rw [this] at hit
      exact hp (List.mem_filter.mp hit).2

lemma nameMatch_F_preserved (nameMatch : String → String → Bool) (name : String)
    (ids : List Nat) (g : CogGroup) :
    (if nameMatch name g.name = true then
        CogGroup.mk g.id g.name (mergeMembers g.members ids)
      else g).name = g.name := by
  by_cases hp : nameMatch name g.name = true
  · rw [if_pos hp]
  · rw [if_neg hp]

lemma idF_preserved (nameMatch : String → String → Bool) (name : String)
    (ids : List Nat) (g : CogGroup) :
    (if nameMatch name g.name = true then
        CogGroup.mk g.id g.name (mergeMembers g.members ids)
      else g).id = g.id := by
  by_cases hp : nameMatch name g.name = true
  · rw [if_pos hp]
  · rw [if_neg hp]

/-- C4 counterexample: with one fuzzy match (`GX` for target `G`) in the
store, the second engine run creates an extra group, so the run is not
idempotent as claimed. -/
theorem C4_counterexample :
    memberView (process_hosts exM exResolve false exMapping
        (process_hosts exM exResolve false exMapping exSt)) ≠
      memberView (process_hosts exM exResolve false exMapping exSt) ∧
    (process_hosts exM exResolve false exMapping
        (process_hosts exM exResolve false exMapping exSt)).groups.length = 3 ∧
    (process_hosts exM exResolve false exMapping exSt).groups.length = 2 := by
  refine ⟨by decide, rfl, rfl⟩


/-! ## Saturation lemmas for rerunning the engine -/

lemma merge_mem_right (a b : List Nat) (x : Nat) (hx : x ∈ b) : x ∈ mergeMembers a b := by
  rw [mergeMembers, List.mem_dedup, List.mem_append]
  exact Or.inr hx

lemma merge_mem_left (a b : List Nat) (x : Nat) (hx : x ∈ a) : x ∈ mergeMembers a b := by
  rw [mergeMembers, List.mem_dedup, List.mem_append]
  exact Or.inl hx

lemma step_inv (nameMatch : String → String → Bool) (resolve : String → List Nat)
    (active : Bool) (st : RemoteState) (e : String × List String)
    (hm2 : ∀ n c, nameMatch n c = true → c = n) (hInv : InvSt st) :
    InvSt (process_hosts_entry nameMatch resolve active st e) := by
  rcases e with ⟨n, tags⟩
  by_cases hres : st.groups.filter (fun g => nameMatch n g.name) = []
  · rw [entry_step_empty nameMatch resolve active st n tags hres]
    constructor
    · show ((st.groups ++ [CogGroup.mk st.nextId n (resolve (buildQuery active tags))]).map
        (fun g => g.id)).Nodup
      rw [List.map_append]
      apply List.Nodup.append hInv.1 (by simp)
      intro a ha hb
      rcases List.mem_map.mp ha with ⟨g, hg, rfl⟩
      have hlt := hInv.2 g hg
      have : g.id = st.nextId := by simpa using hb
      omega
    · intro g hg
      rcases List.mem_append.mp hg with hg1 | hg1
      · have := hInv.2 g hg1
        show g.id < st.nextId + 1
        omega
      · rcases List.mem_singleton.mp hg1 with rfl
        show st.nextId < st.nextId + 1
        omega
  · rw [entry_step_exact nameMatch resolve active st n tags hres
      (fun g _ hp => hm2 n g.name hp) hInv.1]
    constructor
    · show ((st.groups.map (fun g =>
          if nameMatch n g.name = true then
            CogGroup.mk g.id g.name (mergeMembers g.members (resolve (buildQuery active tags)))
          else g)).map (fun g => g.id)).Nodup
      rw [List.map_map]
      have : st.groups.map ((fun g : CogGroup => g.id) ∘ (fun g =>
          if nameMatch n g.name = true then
            CogGroup.mk g.id g.name (mergeMembers g.members (resolve (buildQuery active tags)))
          else g)) = st.groups.map (fun g => g.id) := by
        apply List.map_congr_left
        intro g _
        exact idF_preserved nameMatch n (resolve (buildQuery active tags)) g
      rw [this]
      exact hInv.1
    · intro g' hg'
      rcases List.mem_map.mp hg' with ⟨g, hg, rfl⟩
      show _ < st.nextId
      rw [idF_preserved nameMatch n (resolve (buildQuery active tags)) g]
      exact hInv.2 g hg

lemma step_preserves_hasName (nameMatch : String → String → Bool) (resolve : String → List Nat)
    (active : Bool) (st : RemoteState) (e : String × List String) (n : String)
    (hm2 : ∀ n c, nameMatch n c = true → c = n) (hInv : InvSt st) (hn : HasName st n) :
    HasName (process_hosts_entry nameMatch resolve active st e) n := by
  rcases e with ⟨n', tags⟩
  rcases hn with ⟨g, hg, hgname⟩
  by_cases hres : st.groups.filter (fun g => nameMatch n' g.name) = []
  · rw [entry_step_empty nameMatch resolve active st n' tags hres]
    exact ⟨g, List.mem_append.mpr (Or.inl hg), hgname⟩
  · rw [entry_step_exact nameMatch resolve active st n' tags hres
      (fun g _ hp => hm2 n' g.name hp) hInv.1]
    refine ⟨_, List.mem_map.mpr ⟨g, hg, rfl⟩, ?_⟩
    rw [nameMatch_F_preserved nameMatch n' (resolve (buildQuery active tags)) g]
    exact hgname

lemma step_preserves_contains (nameMatch : String → String → Bool) (resolve : String → List Nat)
    (active : Bool) (st : RemoteState) (e : String × List String) (n : String) (ids : List Nat)
    (hm1 : ∀ m, nameMatch m m = true) (hm2 : ∀ m c, nameMatch m c = true → c = m)
    (hInv : InvSt st) (hn : HasName st n) (hc : ContainsIds st n ids) :
    ContainsIds (process_hosts_entry nameMatch resolve active st e) n ids := by
  rcases e with ⟨n', tags⟩
  by_cases hres : st.groups.filter (fun g => nameMatch n' g.name) = []
  · rw [entry_step_empty nameMatch resolve active st n' tags hres]
    intro g' hg' hg'name x hx
    rcases List.mem_append.mp hg' with hg1 | hg1
    · exact hc g' hg1 hg'name x hx
    · rcases List.mem_singleton.mp hg1 with rfl
      exfalso
      rcases hn with ⟨g, hg, hgname⟩
      have : g ∈ st.groups.filter (fun g => nameMatch n' g.name) := by
        apply List.mem_filter.mpr
        refine ⟨hg, ?_⟩
        show nameMatch n' g.name = true
        rw [hgname]
        show nameMatch n' n = true
        have : n' = n := hg'name
        rw [this]
        exact hm1 n
      rw [hres] at this
      exact List.not_mem_nil g this
  · rw [entry_step_exact nameMatch resolve active st n' tags hres
      (fun g _ hp => hm2 n' g.name hp) hInv.1]
    intro g' hg' hg'name x hx
    rcases List.mem_map.mp hg' with ⟨g, hg, rfl⟩
    rw [nameMatch_F_preserved nameMatch n' (resolve (buildQuery active tags)) g] at hg'name
    by_cases hp : nameMatch n' g.name = true
    · rw [if_pos hp]
      show x ∈ mergeMembers g.members (resolve (buildQuery active tags))
      exact merge_mem_left _ _ x (hc g hg hg'name x hx)
    · rw [if_neg hp]
      exact hc g hg hg'name x hx

lemma step_establishes (nameMatch : String → String → Bool) (resolve : String → List Nat)
    (active : Bool) (st : RemoteState) (n : String) (tags : List String)
    (hm1 : ∀ m, nameMatch m m = true) (hm2 : ∀ m c, nameMatch m c = true → c = m)
    (hInv : InvSt st) :
    HasName (process_hosts_entry nameMatch resolve active st (n, tags)) n ∧
    ContainsIds (process_hosts_entry nameMatch resolve active st (n, tags)) n
      (resolve (buildQuery active tags)) := by
  by_cases hres : st.groups.filter (fun g => nameMatch n g.name) = []
  · rw [entry_step_empty nameMatch resolve active st n tags hres]
    constructor
    · exact ⟨_, List.mem_append.mpr (Or.inr (List.mem_singleton.mpr rfl)), rfl⟩
    · intro g' hg' hg'name x hx
      rcases List.mem_append.mp hg' with hg1 | hg1
      · exfalso
        have : g' ∈ st.groups.filter (fun g => nameMatch n g.name) := by
          apply List.mem_filter.mpr
          refine ⟨hg1, ?_⟩
          show nameMatch n g'.name = true
          rw [hg'name]
          exact hm1 n
        rw [hres] at this
        exact List.not_mem_nil g' this
      · rcases List.mem_singleton.mp hg1 with rfl
        exact hx
  · rw [entry_step_exact nameMatch resolve active st n tags hres
      (fun g _ hp => hm2 n g.name hp) hInv.1]
    constructor
    · rcases List.exists_mem_of_ne_nil _ hres with ⟨it, hit⟩
      rcases List.mem_filter.mp hit with ⟨hitg, hitp⟩
      refine ⟨_, List.mem_map.mpr ⟨it, hitg, rfl⟩, ?_⟩
      rw [nameMatch_F_preserved nameMatch n (resolve (buildQuery active tags)) it]
      exact hm2 n it.name hitp
    · intro g' hg' hg'name x hx
      rcases List.mem_map.mp hg' with ⟨g, hg, rfl⟩
      rw [nameMatch_F_preserved nameMatch n (resolve (buildQuery active tags)) g] at hg'name
      have hp : nameMatch n g.name = true := by
        rw [hg'name]
        exact hm1 n
      rw [if_pos hp]
      show x ∈ mergeMembers g.members (resolve (buildQuery active tags))
      exact merge_mem_right _ _ x hx

lemma run_inv (nameMatch : String → String → Bool) (resolve : String → List Nat)
    (active : Bool) (hm2 : ∀ n c, nameMatch n c = true → c = n) :
    ∀ (M : List (String × List String)) (st : RemoteState), InvSt st →
    InvSt (process_hosts nameMatch resolve active M st) := by
  intro M
  induction M with
  | nil => intro st h; exact h
  | cons e rest ih =>
    intro st h
    exact ih (process_hosts_entry nameMatch resolve active st e)
      (step_inv nameMatch resolve active st e hm2 h)

lemma run_preserves_sat (nameMatch : String → String → Bool) (resolve : String → List Nat)
    (active : Bool) (n : String) (ids : List Nat)
    (hm1 : ∀ m, nameMatch m m = true) (hm2 : ∀ m c, nameMatch m c = true → c = m) :
    ∀ (M : List (String × List String)) (st : RemoteState), InvSt st →
    HasName st n → ContainsIds st n ids →
    HasName (process_hosts nameMatch resolve active M st) n ∧
    ContainsIds (process_hosts nameMatch resolve active M st) n ids := by
  intro M
  induction M with
  | nil => intro st _ h1 h2; exact ⟨h1, h2⟩
  | cons e rest ih =>
    intro st hInv h1 h2
    exact ih (process_hosts_entry nameMatch resolve active st e)
      (step_inv nameMatch resolve active st e hm2 hInv)
      (step_preserves_hasName nameMatch resolve active st e n hm2 hInv h1)
      (step_preserves_contains nameMatch resolve active st e n ids hm1 hm2 hInv h1 h2)

lemma run_saturates (nameMatch : String → String → Bool) (resolve : String → List Nat)
    (active : Bool) (hm1 : ∀ m, nameMatch m m = true)
    (hm2 : ∀ m c, nameMatch m c = true → c = m) :
    ∀ (M : List (String × List String)) (st : RemoteState), InvSt st →
    ∀ e ∈ M, HasName (process_hosts nameMatch resolve active M st) e.1 ∧
      ContainsIds (process_hosts nameMatch resolve active M st) e.1
        (resolve (buildQuery active e.2)) := by
  intro M
  induction M with
  | nil => intro st _ e he; exact absurd he (List.not_mem_nil e)
  | cons e0 rest ih =>
    intro st hInv e he
    have hstep : process_hosts nameMatch resolve active (e0 :: rest) st =
        process_hosts nameMatch resolve active rest
          (process_hosts_entry nameMatch resolve active st e0) := rfl
    rw [hstep]
    have hInv1 := step_inv nameMatch resolve active st e0 hm2 hInv
    rcases List.mem_cons.mp he with rfl | hmem
    · have hest := step_establishes nameMatch resolve active st e.1 e.2 hm1 hm2 hInv
      exact run_preserves_sat nameMatch resolve active e.1
        (resolve (buildQuery active e.2)) hm1 hm2 rest _ hInv1 hest.1 hest.2
    · exact ih _ hInv1 e hmem

lemma view_mem (s : RemoteState) (g : CogGroup) (hg : g ∈ s.groups) :
    (g.id, g.name, g.members.toFinset) ∈ memberView s :=
  List.mem_map.mpr ⟨g, hg, rfl⟩

lemma view_hasName (s s' : RemoteState) (h : memberView s' = memberView s) (n : String)
    (hn : HasName s n) : HasName s' n := by
  rcases hn with ⟨g, hg, hgname⟩
  have : (g.id, g.name, g.members.toFinset) ∈ memberView s' := by
    rw [h]
    exact view_mem s g hg
  rcases List.mem_map.mp this with ⟨g', hg', heq⟩
  refine ⟨g', hg', ?_⟩
  have : g'.name = g.name := congrArg (fun p : Nat × String × Finset Nat => p.2.1) heq
  rw [this, hgname]

lemma view_contains (s s' : RemoteState) (h : memberView s' = memberView s) (n : String)
    (ids : List Nat) (hc : ContainsIds s n ids) : ContainsIds s' n ids := by
  intro g' hg' hg'name x hx
  have : (g'.id, g'.name, g'.members.toFinset) ∈ memberView s := by
    rw [← h]
    exact view_mem s' g' hg'
  rcases List.mem_map.mp this with ⟨g, hg, heq⟩
  have hname : g.name = g'.name := congrArg (fun p : Nat × String × Finset Nat => p.2.1) heq
  have hmem : g.members.toFinset = g'.members.toFinset :=
    congrArg (fun p : Nat × String × Finset Nat => p.2.2) heq
  have hx' : x ∈ g.members := hc g hg (by rw [hname, hg'name]) x hx
  have : x ∈ g'.members.toFinset := by
    rw [← hmem]
    exact List.mem_toFinset.mpr hx'
  exact List.mem_toFinset.mp this

lemma view_ids (s s' : RemoteState) (h : memberView s' = memberView s) :
    s'.groups.map (fun g => g.id) = s.groups.map (fun g => g.id) := by
  have := congrArg (List.map (fun p : Nat × String × Finset Nat => p.1)) h
  simpa [memberView, List.map_map, Function.comp] using this

lemma step_stable (nameMatch : String → String → Bool) (resolve : String → List Nat)
    (active : Bool) (st : RemoteState) (n : String) (tags : List String)
    (hm1 : ∀ m, nameMatch m m = true) (hm2 : ∀ m c, nameMatch m c = true → c = m)
    (hInv : InvSt st) (hn : HasName st n)
    (hc : ContainsIds st n (resolve (buildQuery active tags))) :
    memberView (process_hosts_entry nameMatch resolve active st (n, tags)) = memberView st ∧
    (process_hosts_entry nameMatch resolve active st (n, tags)).nextId = st.nextId := by
  have hres : st.groups.filter (fun g => nameMatch n g.name) ≠ [] := by
    rcases hn with ⟨g, hg, hgname⟩
    intro hcon
    have : g ∈ st.groups.filter (fun g => nameMatch n g.name) := by
      apply List.mem_filter.mpr
      refine ⟨hg, ?_⟩
      show nameMatch n g.name = true
      rw [hgname]
      exact hm1 n
    rw [hcon] at this
    exact List.not_mem_nil g this
  rw [entry_step_exact nameMatch resolve active st n tags hres
    (fun g _ hp => hm2 n g.name hp) hInv.1]
  refine ⟨?_, rfl⟩
  show (st.groups.map _).map _ = st.groups.map _
  rw [List.map_map]
  apply List.map_congr_left
  intro g hg
  by_cases hp : nameMatch n g.name = true
  · simp only [Function.comp_apply, if_pos hp]
    show (g.id, g.name, (mergeMembers g.members (resolve (buildQuery active tags))).toFinset) =
      (g.id, g.name, g.members.toFinset)
    rw [merge_toFinset]
    have hsub : (resolve (buildQuery active tags)).toFinset ⊆ g.members.toFinset := by
      intro x hx
      exact List.mem_toFinset.mpr
        (hc g hg (hm2 n g.name hp) x (List.mem_toFinset.mp hx))
    rw [Finset.union_eq_left.mpr hsub]
  · simp only [Function.comp_apply, if_neg hp]

lemma run2_stable (nameMatch : String → String → Bool) (resolve : String → List Nat)
    (active : Bool) (hm1 : ∀ m, nameMatch m m = true)
    (hm2 : ∀ m c, nameMatch m c = true → c = m) :
    ∀ (M : List (String × List String)) (s : RemoteState), InvSt s →
    (∀ e ∈ M, HasName s e.1 ∧ ContainsIds s e.1 (resolve (buildQuery active e.2))) →
    memberView (process_hosts nameMatch resolve active M s) = memberView s := by
  intro M
  induction M with
  | nil => intro s _ _; rfl
  | cons e rest ih =>
    intro s hInv hsat
    have he := hsat e (List.mem_cons_self e rest)
    have hstab := step_stable nameMatch resolve active s e.1 e.2 hm1 hm2 hInv he.1 he.2
    have hstep : process_hosts nameMatch resolve active (e :: rest) s =
        process_hosts nameMatch resolve active rest
          (process_hosts_entry nameMatch resolve active s (e.1, e.2)) := rfl
    rw [hstep]
    have hids := view_ids _ _ hstab.1
    have hInv1 : InvSt (process_hosts_entry nameMatch resolve active s (e.1, e.2)) := by
      constructor
      · rw [hids]
        exact hInv.1
      · intro g' hg'
        have : g'.id ∈ (process_hosts_entry nameMatch resolve active s
            (e.1, e.2)).groups.map (fun g => g.id) := List.mem_map.mpr ⟨g', hg', rfl⟩
        rw [hids] at this
        rcases List.mem_map.mp this with ⟨g, hg, hgid⟩
        rw [hstab.2, ← hgid]
        exact hInv.2 g hg
    have hsat1 : ∀ e' ∈ rest,
        HasName (process_hosts_entry nameMatch resolve active s (e.1, e.2)) e'.1 ∧
        ContainsIds (process_hosts_entry nameMatch resolve active s (e.1, e.2)) e'.1
          (resolve (buildQuery active e'.2)) := by
      intro e' he'
      have h' := hsat e' (List.mem_cons_of_mem e he')
      exact ⟨view_hasName _ _ hstab.1 e'.1 h'.1,
        view_contains _ _ hstab.1 e'.1 _ h'.2⟩
    rw [ih _ hInv1 hsat1, hstab.1]

/-- C4 (amended): running the engine twice in succession over its whole
mapping, against a store that changes only by the engine's own writes and
with the same resolved host ids, leaves every group's member view equal to
the view after the first run and creates no additional groups, provided the
backend's name search is exact — it returns precisely the groups whose name
equals the searched name. -/
theorem C4_rerun_exact_backend :
    ∀ (nameMatch : String → String → Bool) (resolve : String → List Nat) (active : Bool)
      (st : RemoteState) (mapping : List (String × List String)),
      (∀ n, nameMatch n n = true) →
      (∀ n c, nameMatch n c = true → c = n) →
      (st.groups.map (fun g => g.id)).Nodup →
      (∀ g ∈ st.groups, g.id < st.nextId) →
      memberView (process_hosts nameMatch resolve active mapping
          (process_hosts nameMatch resolve active mapping st)) =
        memberView (process_hosts nameMatch resolve active mapping st) := by
  intro nameMatch resolve active st mapping hm1 hm2 hnodup hfresh
  have hInv : InvSt st := ⟨hnodup, hfresh⟩
  have hInv1 := run_inv nameMatch resolve active hm2 mapping st hInv
  have hsat := run_saturates nameMatch resolve active hm1 hm2 mapping st hInv
  exact run2_stable nameMatch resolve active hm1 hm2 mapping
    (process_hosts nameMatch resolve active mapping st) hInv1 hsat

/-- Witness for the amended C4: an exact-matching backend, a two-entry
mapping, and a store already holding a `G` group. -/
theorem C4_rerun_exact_backend_witness :
    (∀ g ∈ (RemoteState.mk [CogGroup.mk 0 "G" [1]] 1).groups, g.id <
      (RemoteState.mk [CogGroup.mk 0 "G" [1]] 1).nextId) ∧
    memberView (process_hosts (fun q c : String => decide (q = c)) (fun _ => [2]) false
        [("G", ["t"]), ("H", ["u"])]
        (process_hosts (fun q c : String => decide (q = c)) (fun _ => [2]) false
          [("G", ["t"]), ("H", ["u"])] (RemoteState.mk [CogGroup.mk 0 "G" [1]] 1))) =
      memberView (process_hosts (fun q c : String => decide (q = c)) (fun _ => [2]) false
        [("G", ["t"]), ("H", ["u"])] (RemoteState.mk [CogGroup.mk 0 "G" [1]] 1)) :=
  ⟨by decide,
   C4_rerun_exact_backend (fun q c : String => decide (q = c)) (fun _ => [2]) false
     (RemoteState.mk [CogGroup.mk 0 "G" [1]] 1) [("G", ["t"]), ("H", ["u"])]
     (fun n => decide_eq_true rfl) (fun n c h => (of_decide_eq_true h).symm)
     (by decide) (by decide)⟩
